import Mathlib

/-!
Shallow embedding of the availability-intersection core of `src/vs/main.py`
(GCTeamMeeting): the slot grid generator `generate_halfhour_slots`, the
intersection engine `find_common_slots`, the block consolidation engine
`find_hour_blocks`, and the label parsing utility `slot_to_minutes`.

Modelling decisions, each marked at its definition:
* Python strings are Lean `String`; label manipulation (`split("-")`,
  `split(":")`, f-string concatenation, `strftime("%H:%M")`) is embedded as
  structurally recursive functions over `String.data` (`List Char`) so that
  every definition is kernel-computable.
* `datetime` values built by `strptime(_, "%H:%M")` carry only an hour and a
  minute; they are embedded as minutes after midnight (`Nat`).  Comparison and
  `+ timedelta(minutes=30)` agree with this embedding on the single-day ranges
  the program uses.
* Python `int(s)` on a digit string is the usual base-10 value; the embedding
  is total (non-digit characters contribute their code point minus 48), which
  agrees with CPython on every string the program ever parses.
* A Python dict is an association list in insertion order; dict keys are
  unique.  `set(...)` is `List.dedup` (membership is what matters; iteration
  order of a CPython `set` is unspecified, so no theorem below depends on the
  pre-sort order), and `sorted(_, key=slot_to_minutes)` is the stable
  `List.insertionSort` with the key comparison, which agrees with CPython
  `sorted` (also a stable sort) whenever the order used matters.
* The five weekday strings `TAGE` are a five-constructor enumeration; the
  program never applies string operations to a weekday.
-/

/-- The five weekdays of `TAGE` (Montag..Freitag). -/
inductive Weekday : Type
  | Montag | Dienstag | Mittwoch | Donnerstag | Freitag
deriving DecidableEq, Repr

/-- The weekday list `TAGE = ["Montag", "Dienstag", "Mittwoch", "Donnerstag", "Freitag"]`. -/
def TAGE : List Weekday :=
  [.Montag, .Dienstag, .Mittwoch, .Donnerstag, .Freitag]

/-- Python `str.split(sep)` for a one-character separator, over `List Char`:
splits into the (possibly empty) chunks between separator occurrences. -/
def splitOnChar (c : Char) : List Char → List (List Char)
  | [] => [[]]
  | x :: xs =>
    if x = c then [] :: splitOnChar c xs
    else
      match splitOnChar c xs with
      | [] => [[x]]
      | h :: t => (x :: h) :: t

/-- Python `int(s)` on a string of decimal digits (total embedding). -/
def digitsToNat (cs : List Char) : Nat :=
  cs.foldl (fun acc c => acc * 10 + (c.toNat - 48)) 0

/-- Embedding of `datetime.strptime(s, "%H:%M")` reduced to minutes after midnight:
`int(hh) * 60 + int(mm)` for `s = "HH:MM"`. -/
def parseClock (cs : List Char) : Nat :=
  let parts := splitOnChar ':' cs
  digitsToNat (parts.getD 0 []) * 60 + digitsToNat (parts.getD 1 [])

/-- Python `slot_label.split("-")[0]` as a character list. -/
def startChars (s : String) : List Char :=
  (splitOnChar '-' s.data).getD 0 []

/-- Python `slot_label.split("-")[1]` as a character list. -/
def endChars (s : String) : List Char :=
  (splitOnChar '-' s.data).getD 1 []

/-- Function `slot_to_minutes` of `main.py`: minutes after midnight of the START time
of a label; the part after the dash is never read. -/
def slot_to_minutes (slot_label : String) : Nat :=
  parseClock (startChars slot_label)

/-- Specification helper (not in the source): minutes after midnight of the
END component of a label, used to state temporal adjacency. -/
def slotEndMinutes (slot_label : String) : Nat :=
  parseClock (endChars slot_label)

/-- One digit character. -/
def digitChar (n : Nat) : Char := Char.ofNat (48 + n)

/-- Embedding of `strftime("%H:%M")` at a minutes-after-midnight value (two-digit
zero-padded hour and minute, as `%H`/`%M` produce for the values in range). -/
def fmtClock (m : Nat) : String :=
  String.mk [digitChar (m / 60 / 10), digitChar (m / 60 % 10), ':',
             digitChar (m % 60 / 10), digitChar (m % 60 % 10)]

/-- The f-string `f"{slot_start.strftime(fmt)}-{slot_end.strftime(fmt)}"`. -/
def mkLabel (a b : Nat) : String :=
  String.mk ((fmtClock a).data ++ '-' :: (fmtClock b).data)

/-- The `while current < end_dt` loop of `generate_halfhour_slots`, embedded
with an explicit iteration bound (`fuel`); each iteration advances `current`
by 30 minutes, so any `fuel ≥ end_m` is enough and the bound never changes
the value (proved in `genLoop_eq_closedForm`). -/
def genLoop : Nat → Nat → Nat → List String
  | 0, _, _ => []
  | fuel + 1, current, end_m =>
    if current < end_m then
      if current + 30 > end_m then []
      else mkLabel current (current + 30) :: genLoop fuel (current + 30) end_m
    else []

/-- Function `generate_halfhour_slots(start_str, end_str)` of `main.py`. -/
def generate_halfhour_slots (start_str end_str : String) : List String :=
  let start_m := parseClock start_str.data
  let end_m := parseClock end_str.data
  genLoop end_m start_m end_m

/-- The module constant `HALF_HOUR_SLOTS = generate_halfhour_slots("12:00", "21:30")`. -/
def HALF_HOUR_SLOTS : List String :=
  generate_halfhour_slots "12:00" "21:30"

/-- The merged label built inside `find_hour_blocks`:
`f"{slot_a.split('-')[0]}-{slot_b.split('-')[1]}"`. -/
def mergeLabel (slot_a slot_b : String) : String :=
  String.mk (startChars slot_a ++ '-' :: endChars slot_b)

/-- Function `find_hour_blocks` of `main.py`.  The index loop
(`while i < len - 1`, advancing by 2 after a merge and by 1 otherwise) is the
structural recursion on the list starting at index `i`. -/
def find_hour_blocks : List String → List String
  | [] => []
  | [_] => []
  | slot_a :: slot_b :: rest =>
    if slot_to_minutes slot_b = slot_to_minutes slot_a + 30 then
      mergeLabel slot_a slot_b :: find_hour_blocks rest
    else
      find_hour_blocks (slot_b :: rest)

/-- Per-person availability: the per-weekday slot lists (`data[p][tag]`);
total over `Weekday`, as every loaded record has all five day keys. -/
abbrev Avail : Type := Weekday → List String

/-- A snapshot passed to `find_common_slots`: a dict from person to
availability, as an association list in insertion order with unique keys. -/
abbrev Snapshot : Type := List (String × Avail)

/-- The comparison `sorted(..., key=slot_to_minutes)` sorts by. -/
def slotLe (a b : String) : Prop := slot_to_minutes a ≤ slot_to_minutes b

instance : DecidableRel slotLe := fun a b => by
  unfold slotLe; infer_instance

instance : IsTotal String slotLe := ⟨fun _ _ => Nat.le_total _ _⟩

instance : IsTrans String slotLe := ⟨fun _ _ _ => Nat.le_trans⟩

/-- The strict version of `slotLe`, for uniqueness-of-sorted-output lemmas. -/
def slotLt (a b : String) : Prop := slot_to_minutes a < slot_to_minutes b

instance : IsAntisymm String slotLt :=
  ⟨fun _ _ h h' => absurd (Nat.lt_trans h h') (Nat.lt_irrefl _)⟩

/-- The per-day body of the `for tag in TAGE` loop of `find_common_slots`:
seed with the set of the first person, intersect left to right with each
remaining person, and sort the members by `slot_to_minutes`. -/
def dayIntersection (selected_data : Snapshot) (tag : Weekday) : List String :=
  match selected_data with
  | [] => []
  | p :: rest =>
    let seed := (p.2 tag).dedup
    let inter := rest.foldl (fun acc q => acc.filter (fun s => s ∈ q.2 tag)) seed
    List.insertionSort slotLe inter

/-- Function `find_common_slots(selected_data, meeting_length)` of `main.py`: with
fewer than two persons the empty dict; otherwise one entry per weekday, the
sorted intersection passed through `find_hour_blocks` unless
`meeting_length == 30`. -/
def find_common_slots (selected_data : Snapshot) (meeting_length : Nat) :
    List (Weekday × List String) :=
  if selected_data.length < 2 then []
  else
    TAGE.map fun tag =>
      (tag,
        let halfhour_list := dayIntersection selected_data tag
        if meeting_length = 30 then halfhour_list
        else find_hour_blocks halfhour_list)

/-- Reading `common.get(tag, [])` from the returned dict, as the caller in
`main.py` does. -/
def lookupDay (common : List (Weekday × List String)) (tag : Weekday) :
    List String :=
  (common.lookup tag).getD []

/-! ### Concrete availabilities used to instantiate the theorems -/

/-- Scenario 1 person A: free Monday 12:00-13:00 (two half-hour slots). -/
def exA : Avail := fun d =>
  match d with
  | .Montag => ["12:00-12:30", "12:30-13:00"]
  | _ => []

/-- Scenario 1 person B: free Monday 12:30-13:30. -/
def exB : Avail := fun d =>
  match d with
  | .Montag => ["12:30-13:00", "13:00-13:30"]
  | _ => []

/-- A third person, free Monday 12:30-13:30. -/
def exC : Avail := fun d =>
  match d with
  | .Montag => ["12:30-13:00", "13:00-13:30"]
  | _ => []

/-- A person whose only stored label lies outside `HALF_HOUR_SLOTS`. -/
def exOut : Avail := fun d =>
  match d with
  | .Montag => ["23:00-23:30"]
  | _ => []

/-! ### The slot-grid loop in closed form -/

/-- The `while` loop of `generate_halfhour_slots` emits exactly the
consecutive 30-minute labels starting at `current` that fit before `end_m`,
one per `k < (end_m - current) / 30`; any larger iteration bound gives the
same value. -/
theorem genLoop_eq_closedForm (fuel : Nat) :
    ∀ current end_m, end_m ≤ current + 30 * fuel →
      genLoop fuel current end_m =
        (List.range ((end_m - current) / 30)).map
          (fun k => mkLabel (current + 30 * k) (current + 30 * k + 30)) := by
  induction fuel with
  | zero =>
    intro current end_m h
    have hz : (end_m - current) / 30 = 0 := by omega
    simp [genLoop, hz]
  | succ fuel ih =>
    intro current end_m h
    by_cases h1 : current < end_m
    · by_cases h2 : current + 30 > end_m
      · have hz : (end_m - current) / 30 = 0 := Nat.div_eq_of_lt (by omega)
        simp [genLoop, h1, h2, hz]
      · have h2' : current + 30 ≤ end_m := by omega
        have hdiv : (end_m - current) / 30 = (end_m - (current + 30)) / 30 + 1 := by
          rw [Nat.div_eq_sub_div (by norm_num) (by omega)]
          congr 1
        rw [genLoop, if_pos h1, if_neg h2, ih (current + 30) end_m (by omega),
          hdiv, List.range_succ_eq_map, List.map_cons, List.map_map]
        congr 1
        apply List.map_congr_left
        intro k _
        simp only [Function.comp_apply, Nat.succ_eq_add_one]
        have hx : current + 30 + 30 * k = current + 30 * (k + 1) := by omega
        rw [hx]
    · have hz : (end_m - current) / 30 = 0 := by omega
      simp [genLoop, h1, hz]

/-! ### Intersection-engine helper lemmas -/

/-- Membership in the left-to-right intersection fold of `find_common_slots`:
a slot survives iff it is in the seed and in every remaining set. -/
theorem mem_foldl_filter (tag : Weekday) (rest : List (String × Avail)) :
    ∀ (seed : List String) (s : String),
      s ∈ rest.foldl (fun acc q => acc.filter (fun x => x ∈ q.2 tag)) seed ↔
        s ∈ seed ∧ ∀ q ∈ rest, s ∈ q.2 tag := by
  induction rest with
  | nil => simp
  | cons q rest ih =>
    intro seed s
    rw [List.foldl_cons, ih]
    simp only [List.mem_filter, decide_eq_true_eq, List.forall_mem_cons]
    tauto

/-- The intersection fold preserves `Nodup`. -/
theorem nodup_foldl_filter (tag : Weekday) (rest : List (String × Avail)) :
    ∀ seed : List String, seed.Nodup →
      (rest.foldl (fun acc q => acc.filter (fun x => x ∈ q.2 tag)) seed).Nodup := by
  induction rest with
  | nil => intro seed hs; simpa using hs
  | cons q rest ih =>
    intro seed hs
    rw [List.foldl_cons]
    exact ih _ (hs.filter _)

/-- The per-day intersection list is sorted by slot start time. -/
theorem dayIntersection_sorted (data : Snapshot) (tag : Weekday) :
    List.Sorted slotLe (dayIntersection data tag) := by
  cases data with
  | nil => exact List.sorted_nil
  | cons p rest => exact List.sorted_insertionSort slotLe _

/-- The per-day intersection list has no duplicate labels. -/
theorem dayIntersection_nodup (data : Snapshot) (tag : Weekday) :
    (dayIntersection data tag).Nodup := by
  cases data with
  | nil => exact List.nodup_nil
  | cons p rest =>
    unfold dayIntersection
    rw [(List.perm_insertionSort slotLe _).nodup_iff]
    exact nodup_foldl_filter tag rest _ (p.2 tag).nodup_dedup

/-- Membership in the per-day intersection: a slot is reported iff every selected
person has it (for a nonempty snapshot). -/
theorem mem_dayIntersection (p : String × Avail) (rest : List (String × Avail))
    (tag : Weekday) (s : String) :
    s ∈ dayIntersection (p :: rest) tag ↔ ∀ q ∈ p :: rest, s ∈ q.2 tag := by
  unfold dayIntersection
  rw [(List.perm_insertionSort slotLe _).mem_iff, mem_foldl_filter]
  simp [List.forall_mem_cons]

/-- Every weekday occurs in `TAGE`. -/
theorem mem_TAGE (tag : Weekday) : tag ∈ TAGE := by
  cases tag <;> simp [TAGE]

/-- Reading the dict built by `find_common_slots` at a weekday, when at least
two persons were supplied. -/
theorem lookupDay_find_common_slots (data : Snapshot) (len : Nat)
    (h : ¬ data.length < 2) (tag : Weekday) :
    lookupDay (find_common_slots data len) tag =
      (if len = 30 then dayIntersection data tag
       else find_hour_blocks (dayIntersection data tag)) := by
  unfold find_common_slots lookupDay
  rw [if_neg h]
  cases tag <;> rfl

/-! ### Canonical labels and uniqueness of the sorted output -/

/-- A snapshot whose stored labels all come from the canonical grid — the
data-model invariant of the availability store (every saved label is one of
the checkbox rows generated from `HALF_HOUR_SLOTS`). -/
def canonicalSnapshot (data : Snapshot) : Prop :=
  ∀ p ∈ data, ∀ tag ∈ TAGE, ∀ s ∈ p.2 tag, s ∈ HALF_HOUR_SLOTS

instance (data : Snapshot) : Decidable (canonicalSnapshot data) := by
  unfold canonicalSnapshot; infer_instance

/-- On the 19 canonical grid labels, the start time determines the label. -/
theorem canonical_key_inj :
    ∀ a ∈ HALF_HOUR_SLOTS, ∀ b ∈ HALF_HOUR_SLOTS,
      slot_to_minutes a = slot_to_minutes b → a = b := by decide

/-- A list of canonical labels that is sorted by `slotLe` and duplicate-free
is sorted strictly. -/
theorem sorted_slotLt_of_canonical (l : List String)
    (hs : List.Sorted slotLe l) (hn : l.Nodup)
    (hc : ∀ s ∈ l, s ∈ HALF_HOUR_SLOTS) : List.Sorted slotLt l := by
  have hand := List.Pairwise.and hs hn
  refine hand.imp_of_mem ?_
  intro a b ha hb hab
  rcases hab with ⟨hle, hne⟩
  have : slot_to_minutes a ≠ slot_to_minutes b := fun he =>
    hne (canonical_key_inj a (hc a ha) b (hc b hb) he)
  exact lt_of_le_of_ne hle this

/-- Two duplicate-free `slotLe`-sorted lists of canonical labels with the
same members are equal. -/
theorem eq_of_same_members_sorted (l l' : List String)
    (hs : List.Sorted slotLe l) (hs' : List.Sorted slotLe l')
    (hn : l.Nodup) (hn' : l'.Nodup)
    (hc : ∀ s ∈ l, s ∈ HALF_HOUR_SLOTS) (hc' : ∀ s ∈ l', s ∈ HALF_HOUR_SLOTS)
    (hm : ∀ s, s ∈ l ↔ s ∈ l') : l = l' := by
  have hperm : l.Perm l' := by
    refine List.perm_of_nodup_nodup_toFinset_eq hn hn' ?_
    ext s
    simp [List.mem_toFinset, hm s]
  exact List.eq_of_perm_of_sorted hperm
    (sorted_slotLt_of_canonical l hs hn hc)
    (sorted_slotLt_of_canonical l' hs' hn' hc')

/-! ### Consolidation trace: which slots each hour block consumes -/

/-- Function `find_hour_blocks` instrumented with the pairs of slots each block
consumes and with the slots it drops; same recursion as the source loop. -/
def hourBlocksTrace : List String → List String × List (String × String) × List String
  | [] => ([], [], [])
  | [a] => ([], [], [a])
  | slot_a :: slot_b :: rest =>
    if slot_to_minutes slot_b = slot_to_minutes slot_a + 30 then
      let t := hourBlocksTrace rest
      (mergeLabel slot_a slot_b :: t.1, (slot_a, slot_b) :: t.2.1, t.2.2)
    else
      let t := hourBlocksTrace (slot_b :: rest)
      (t.1, t.2.1, slot_a :: t.2.2)

/-- The instrumented function computes exactly `find_hour_blocks`. -/
theorem hourBlocksTrace_fst (l : List String) :
    (hourBlocksTrace l).1 = find_hour_blocks l := by
  induction l using hourBlocksTrace.induct with
  | case1 => rfl
  | case2 a => rfl
  | case3 slot_a slot_b rest hadj ih =>
    simp [hourBlocksTrace, find_hour_blocks, hadj, ih]
  | case4 slot_a slot_b rest hadj ih =>
    simp [hourBlocksTrace, find_hour_blocks, hadj, ih]

/-- Each emitted block is the merge of its consumed pair, in order. -/
theorem hourBlocksTrace_blocks_eq_map (l : List String) :
    (hourBlocksTrace l).1 =
      (hourBlocksTrace l).2.1.map (fun pq => mergeLabel pq.1 pq.2) := by
  induction l using hourBlocksTrace.induct with
  | case1 => rfl
  | case2 a => rfl
  | case3 slot_a slot_b rest hadj ih =>
    simp [hourBlocksTrace, hadj, ih]
  | case4 slot_a slot_b rest hadj ih =>
    simp [hourBlocksTrace, hadj, ih]

/-- Every consumed pair satisfies the adjacency test of the source loop. -/
theorem hourBlocksTrace_pairs_adjacent (l : List String) :
    ∀ pq ∈ (hourBlocksTrace l).2.1,
      slot_to_minutes pq.2 = slot_to_minutes pq.1 + 30 := by
  induction l using hourBlocksTrace.induct with
  | case1 => intro pq h; simp [hourBlocksTrace] at h
  | case2 a => intro pq h; simp [hourBlocksTrace] at h
  | case3 slot_a slot_b rest hadj ih =>
    intro pq h
    simp only [hourBlocksTrace, if_pos hadj, List.mem_cons] at h
    rcases h with h | h
    · subst h; exact hadj
    · exact ih pq h
  | case4 slot_a slot_b rest hadj ih =>
    intro pq h
    simp only [hourBlocksTrace, if_neg hadj] at h
    exact ih pq h

/-- The consumed pairs, flattened in order, together with the dropped slots
are a permutation of the input: every input slot is consumed by exactly one
block or dropped, never duplicated. -/
theorem hourBlocksTrace_perm (l : List String) :
    (((hourBlocksTrace l).2.1.bind fun pq => [pq.1, pq.2]) ++
        (hourBlocksTrace l).2.2).Perm l := by
  induction l using hourBlocksTrace.induct with
  | case1 => simp [hourBlocksTrace]
  | case2 a => simp [hourBlocksTrace]
  | case3 slot_a slot_b rest hadj ih =>
    simp only [hourBlocksTrace, if_pos hadj, List.cons_bind, List.cons_append,
      List.append_assoc]
    exact (ih.cons slot_b).cons slot_a
  | case4 slot_a slot_b rest hadj ih =>
    simp only [hourBlocksTrace, if_neg hadj]
    exact List.perm_middle.trans (ih.cons slot_a)

/-! ### Parsing the merged labels -/

/-- Function `splitOnChar` never returns an empty chunk list. -/
theorem splitOnChar_ne_nil (c : Char) (cs : List Char) :
    splitOnChar c cs ≠ [] := by
  cases cs with
  | nil => simp [splitOnChar]
  | cons x xs =>
    by_cases hx : x = c
    · simp [splitOnChar, hx]
    · simp only [splitOnChar, if_neg hx]
      cases h : splitOnChar c xs <;> simp

/-- A separator-free character list is one single chunk. -/
theorem splitOnChar_of_not_mem {c : Char} {cs : List Char} (h : c ∉ cs) :
    splitOnChar c cs = [cs] := by
  induction cs with
  | nil => rfl
  | cons x xs ih =>
    have hx : ¬ x = c := fun he => h (he ▸ List.mem_cons_self x xs)
    have hxs : c ∉ xs := fun hm => h (List.mem_cons_of_mem x hm)
    simp [splitOnChar, hx, ih hxs]

/-- No chunk produced by `splitOnChar` contains the separator. -/
theorem not_mem_of_mem_splitOnChar (c : Char) (cs : List Char) :
    ∀ chunk ∈ splitOnChar c cs, c ∉ chunk := by
  induction cs with
  | nil => intro chunk h; simp [splitOnChar] at h; simp [h]
  | cons x xs ih =>
    intro chunk h
    by_cases hx : x = c
    · simp only [splitOnChar, if_pos hx, List.mem_cons] at h
      rcases h with h | h
      · simp [h]
      · exact ih chunk h
    · simp only [splitOnChar, if_neg hx] at h
      rcases he : splitOnChar c xs with _ | ⟨hd, tl⟩
      · exact absurd he (splitOnChar_ne_nil c xs)
      · rw [he, List.mem_cons] at h
        rcases h with h | h
        · subst h
          intro hm
          rcases List.mem_cons.mp hm with h | h
          · exact hx h.symm
          · exact ih hd (he ▸ List.mem_cons_self hd tl) h
        · exact ih chunk (he ▸ List.mem_cons_of_mem hd h)

/-- Splitting a list whose first chunk is separator-free peels that chunk. -/
theorem splitOnChar_append_cons (c : Char) (ys : List Char) :
    ∀ xs : List Char, c ∉ xs →
      splitOnChar c (xs ++ c :: ys) = xs :: splitOnChar c ys := by
  intro xs
  induction xs with
  | nil => intro _; simp [splitOnChar]
  | cons x xs ih =>
    intro h
    have hx : ¬ x = c := fun he => h (he ▸ List.mem_cons_self x xs)
    have hxs : c ∉ xs := fun hm => h (List.mem_cons_of_mem x hm)
    simp only [List.cons_append, splitOnChar, if_neg hx, List.append_eq]
    rw [ih hxs]

/-- The separator dash occurs in no start component. -/
theorem dash_not_mem_startChars (s : String) : '-' ∉ startChars s := by
  unfold startChars
  rcases he : splitOnChar '-' s.data with _ | ⟨hd, tl⟩
  · exact absurd he (splitOnChar_ne_nil _ _)
  · exact not_mem_of_mem_splitOnChar '-' s.data hd
      (he ▸ List.mem_cons_self hd tl) |>.imp fun h => h
    -- `getD 0` of a cons is its head

/-- The separator dash occurs in no end component. -/
theorem dash_not_mem_endChars (s : String) : '-' ∉ endChars s := by
  unfold endChars
  rcases he : splitOnChar '-' s.data with _ | ⟨hd, tl⟩
  · exact absurd he (splitOnChar_ne_nil _ _)
  · cases tl with
    | nil => simp
    | cons hd2 tl2 =>
      exact not_mem_of_mem_splitOnChar '-' s.data hd2
        (he ▸ List.mem_cons_of_mem hd (List.mem_cons_self hd2 tl2))

/-- The merged label starts where its first slot starts. -/
theorem startChars_mergeLabel (a b : String) :
    startChars (mergeLabel a b) = startChars a := by
  show (splitOnChar '-' (startChars a ++ '-' :: endChars b)).getD 0 [] = _
  rw [splitOnChar_append_cons '-' (endChars b) (startChars a)
    (dash_not_mem_startChars a)]
  rfl

/-- The merged label ends where its second slot ends. -/
theorem endChars_mergeLabel (a b : String) :
    endChars (mergeLabel a b) = endChars b := by
  show (splitOnChar '-' (startChars a ++ '-' :: endChars b)).getD 1 [] = _
  rw [splitOnChar_append_cons '-' (endChars b) (startChars a)
    (dash_not_mem_startChars a),
    splitOnChar_of_not_mem (dash_not_mem_endChars b)]
  rfl

/-- Start time of a merged block label. -/
theorem slot_to_minutes_mergeLabel (a b : String) :
    slot_to_minutes (mergeLabel a b) = slot_to_minutes a := by
  unfold slot_to_minutes
  rw [startChars_mergeLabel]

/-- End time of a merged block label. -/
theorem slotEndMinutes_mergeLabel (a b : String) :
    slotEndMinutes (mergeLabel a b) = slotEndMinutes b := by
  unfold slotEndMinutes
  rw [endChars_mergeLabel]

/-! ### Claim theorems -/

/-- C5: for every start time strictly before every end time, the slot grid
generator returns the ordered sequence of consecutive non-overlapping
30-minute labels covering the range, dropping any trailing incomplete unit
(label `k` covers `[start + 30k, start + 30k + 30)` and there are
`(end - start) / 30` of them); in particular
`generate_halfhour_slots "12:00" "21:30"` deterministically yields the same
sequence of exactly 19 labels, first `"12:00-12:30"`, last `"21:00-21:30"`. -/
theorem C5_slot_grid_generator :
    (∀ start_str end_str : String,
        parseClock start_str.data < parseClock end_str.data →
        generate_halfhour_slots start_str end_str =
          (List.range
              ((parseClock end_str.data - parseClock start_str.data) / 30)).map
            (fun k => mkLabel (parseClock start_str.data + 30 * k)
              (parseClock start_str.data + 30 * k + 30)))
    ∧ generate_halfhour_slots "12:00" "21:30" =
        generate_halfhour_slots "12:00" "21:30"
    ∧ (generate_halfhour_slots "12:00" "21:30").length = 19
    ∧ (generate_halfhour_slots "12:00" "21:30").headD "" = "12:00-12:30"
    ∧ (generate_halfhour_slots "12:00" "21:30").getLast? = some "21:00-21:30" := by
  refine ⟨?_, rfl, by decide, by decide, by decide⟩
  intro start_str end_str _
  unfold generate_halfhour_slots
  exact genLoop_eq_closedForm _ _ _ (by omega)

/-- Witness for C5 at `("12:00", "21:30")`. -/
theorem C5_slot_grid_generator_witness :
    parseClock "12:00".data < parseClock "21:30".data ∧
    generate_halfhour_slots "12:00" "21:30" =
      (List.range ((parseClock "21:30".data - parseClock "12:00".data) / 30)).map
        (fun k => mkLabel (parseClock "12:00".data + 30 * k)
          (parseClock "12:00".data + 30 * k + 30)) :=
  ⟨by decide, C5_slot_grid_generator.1 "12:00" "21:30" (by decide)⟩

/-- C3: with fewer than two persons in the mapping, `find_common_slots`
returns (without crashing) a result that reads as the empty sequence for
every one of the five weekdays. -/
theorem C3_insufficient_participants (selected_data : Snapshot)
    (meeting_length : Nat) (h : selected_data.length < 2) (tag : Weekday) :
    lookupDay (find_common_slots selected_data meeting_length) tag = [] := by
  unfold find_common_slots lookupDay
  rw [if_pos h]
  rfl

/-- Witness for C3 at a one-person snapshot on Monday. -/
theorem C3_insufficient_participants_witness :
    ([("Dodi", exA)] : Snapshot).length < 2 ∧
    lookupDay (find_common_slots [("Dodi", exA)] 30) .Montag = [] :=
  ⟨by decide, C3_insufficient_participants [("Dodi", exA)] 30 (by decide) .Montag⟩

/-- C4 counterexample: a requested length of 45 — outside {30, 60} — is not
surfaced as any error: `find_common_slots` silently computes exactly the
60-minute consolidation for it. -/
theorem C4_counterexample :
    find_common_slots [("A", exA), ("B", exA)] 45 =
      find_common_slots [("A", exA), ("B", exA)] 60 ∧
    lookupDay (find_common_slots [("A", exA), ("B", exA)] 45) .Montag =
      ["12:00-13:00"] :=
  ⟨by decide, by decide⟩

/-- C4 (amended): any requested meeting length other than 30 — including
every value outside {30, 60} — is silently coerced into the 60-minute
consolidation branch; `find_common_slots` raises no error. -/
theorem C4_silent_coercion (selected_data : Snapshot) (meeting_length : Nat)
    (h : meeting_length ≠ 30) :
    find_common_slots selected_data meeting_length =
      find_common_slots selected_data 60 := by
  unfold find_common_slots
  by_cases hl : selected_data.length < 2
  · rw [if_pos hl, if_pos hl]
  · rw [if_neg hl, if_neg hl]
    apply List.map_congr_left
    intro tag _
    simp [h]

/-- Witness for the amended C4 at length 45. -/
theorem C4_silent_coercion_witness :
    45 ≠ 30 ∧
    find_common_slots [("A", exA), ("B", exA)] 45 =
      find_common_slots [("A", exA), ("B", exA)] 60 :=
  ⟨by decide, C4_silent_coercion [("A", exA), ("B", exA)] 45 (by decide)⟩

/-- C2: in 60-minute mode, on half-hour labels (end = start + 30) the scan
merges the current slot with its immediate successor into one block from the
first start to the second end exactly when the successor is temporally
adjacent (its start equals the current end), advancing past both; otherwise
it advances past the single slot emitting nothing (so a trailing or isolated
half-hour slot is dropped); three consecutive adjacent slots yield exactly
`["12:00-13:00"]`, never a 90-minute block. -/
theorem C2_sixty_minute_consolidation :
    (∀ slot_a slot_b rest,
        slotEndMinutes slot_a = slot_to_minutes slot_a + 30 →
        ((slot_to_minutes slot_b = slotEndMinutes slot_a →
            find_hour_blocks (slot_a :: slot_b :: rest) =
              mergeLabel slot_a slot_b :: find_hour_blocks rest) ∧
          (slot_to_minutes slot_b ≠ slotEndMinutes slot_a →
            find_hour_blocks (slot_a :: slot_b :: rest) =
              find_hour_blocks (slot_b :: rest))))
    ∧ (∀ slot_a, find_hour_blocks [slot_a] = [])
    ∧ find_hour_blocks ["12:00-12:30", "12:30-13:00", "13:00-13:30"] =
        ["12:00-13:00"] := by
  refine ⟨?_, fun slot_a => rfl, by decide⟩
  intro slot_a slot_b rest hhalf
  constructor
  · intro hadj
    have hc : slot_to_minutes slot_b = slot_to_minutes slot_a + 30 := by
      rw [hadj, hhalf]
    simp [find_hour_blocks, hc]
  · intro hadj
    have hc : ¬ slot_to_minutes slot_b = slot_to_minutes slot_a + 30 := by
      rw [← hhalf]; exact hadj
    simp [find_hour_blocks, hc]

/-- Witness for C2 at `"12:00-12:30"`, `"12:30-13:00"`. -/
theorem C2_sixty_minute_consolidation_witness :
    slotEndMinutes "12:00-12:30" = slot_to_minutes "12:00-12:30" + 30 ∧
    slot_to_minutes "12:30-13:00" = slotEndMinutes "12:00-12:30" ∧
    find_hour_blocks ["12:00-12:30", "12:30-13:00"] = ["12:00-13:00"] := by
  refine ⟨by decide, by decide, ?_⟩
  have h := (C2_sixty_minute_consolidation.1 "12:00-12:30" "12:30-13:00" []
    (by decide)).1 (by decide)
  rw [h]
  decide

/-- C10: the 60-minute consolidation decides a merge of two consecutive
entries solely from their start components (merging exactly when the second
start equals the first start plus 30 minutes); the end of the first entry is never
consulted for the adjacency test and is discarded when the merged label is
built from the first start and the second end — so a label spanning other
than 30 minutes is still merged even though the second start differs from
the first end. -/
theorem C10_adjacency_from_start_only :
    (∀ slot_a slot_b rest,
        find_hour_blocks (slot_a :: slot_b :: rest) =
          if slot_to_minutes slot_b = slot_to_minutes slot_a + 30 then
            mergeLabel slot_a slot_b :: find_hour_blocks rest
          else find_hour_blocks (slot_b :: rest))
    ∧ (∀ slot_a slot_c l, startChars slot_a = startChars slot_c →
        find_hour_blocks (slot_a :: l) = find_hour_blocks (slot_c :: l))
    ∧ find_hour_blocks ["12:00-14:45", "12:30-13:00"] = ["12:00-13:00"]
    ∧ slot_to_minutes "12:30-13:00" ≠ slotEndMinutes "12:00-14:45" := by
  refine ⟨fun slot_a slot_b rest => rfl, ?_, by decide, by decide⟩
  intro slot_a slot_c l h
  cases l with
  | nil => rfl
  | cons slot_b rest =>
    have hk : slot_to_minutes slot_a = slot_to_minutes slot_c := by
      unfold slot_to_minutes; rw [h]
    have hm : mergeLabel slot_a slot_b = mergeLabel slot_c slot_b := by
      unfold mergeLabel; rw [h]
    show (if slot_to_minutes slot_b = slot_to_minutes slot_a + 30 then
        mergeLabel slot_a slot_b :: find_hour_blocks rest
      else find_hour_blocks (slot_b :: rest)) = _
    rw [hk, hm]
    rfl

/-- Witness for C10: two labels sharing a start component are
interchangeable at the head of the scan. -/
theorem C10_adjacency_from_start_only_witness :
    startChars "12:00-12:30" = startChars "12:00-99:99" ∧
    find_hour_blocks ["12:00-12:30", "12:30-13:00"] =
      find_hour_blocks ["12:00-99:99", "12:30-13:00"] :=
  ⟨by decide, C10_adjacency_from_start_only.2.1 "12:00-12:30" "12:00-99:99"
    ["12:30-13:00"] (by decide)⟩

/-- C1: with at least two persons (each with an entry for every weekday, as
the total `Avail` functions record), the result read at each weekday is
exactly the set intersection of the slot sets of all chosen persons for that day —
seeded with the set of the first person and intersected left to right with each
remaining set — materialized sorted ascending by slot start time. -/
theorem C1_intersection_engine (selected_data : Snapshot)
    (h2 : 2 ≤ selected_data.length) (tag : Weekday) :
    List.Sorted slotLe (lookupDay (find_common_slots selected_data 30) tag) ∧
    (∀ s, s ∈ lookupDay (find_common_slots selected_data 30) tag ↔
      ∀ p ∈ selected_data, s ∈ p.2 tag) ∧
    (∀ p rest, selected_data = p :: rest →
      lookupDay (find_common_slots selected_data 30) tag =
        List.insertionSort slotLe
          (rest.foldl (fun acc q => acc.filter (fun s => s ∈ q.2 tag))
            (p.2 tag).dedup)) := by
  have hn : ¬ selected_data.length < 2 := by omega
  have hl := lookupDay_find_common_slots selected_data 30 hn tag
  rw [if_pos rfl] at hl
  cases selected_data with
  | nil => simp at h2
  | cons p rest =>
    rw [hl]
    refine ⟨dayIntersection_sorted _ _, mem_dayIntersection p rest tag, ?_⟩
    intro p' rest' he
    rw [List.cons.injEq] at he
    rw [← he.1, ← he.2]
    rfl

/-- Witness for C1 at Scenario 1 (persons A and B on Monday). -/
theorem C1_intersection_engine_witness :
    2 ≤ ([("A", exA), ("B", exB)] : Snapshot).length ∧
    lookupDay (find_common_slots [("A", exA), ("B", exB)] 30) .Montag =
      ["12:30-13:00"] := by
  refine ⟨by decide, ?_⟩
  have h := (C1_intersection_engine [("A", exA), ("B", exB)] (by decide)
    .Montag).2.2 ("A", exA) [("B", exB)] rfl
  rw [h]
  decide

/-- C6 counterexample: a label outside the canonical grid that every selected
person shares is NOT filtered — it appears in the per-day intersection
result, so results are not always drawn from `HALF_HOUR_SLOTS`. -/
theorem C6_counterexample :
    lookupDay (find_common_slots [("A", exOut), ("B", exOut)] 30) .Montag =
      ["23:00-23:30"] ∧
    "23:00-23:30" ∉ HALF_HOUR_SLOTS :=
  ⟨by decide, by decide⟩

/-- C6 (amended): the intersection never crashes on a stored label outside
the canonical grid; such a label is dropped from the per-day result exactly
when the set of some selected person lacks it — every reported label occurs in
the stored set of every selected person — but no validation against the canonical
grid takes place, so an off-grid label shared by all selected persons is
reported. -/
theorem C6_unknown_labels_only_filtered_by_intersection
    (selected_data : Snapshot) (h2 : 2 ≤ selected_data.length) (tag : Weekday)
    (s : String)
    (hs : s ∈ lookupDay (find_common_slots selected_data 30) tag) :
    ∀ p ∈ selected_data, s ∈ p.2 tag := by
  have hn : ¬ selected_data.length < 2 := by omega
  rw [lookupDay_find_common_slots selected_data 30 hn tag, if_pos rfl] at hs
  cases selected_data with
  | nil => simp at h2
  | cons p rest => exact (mem_dayIntersection p rest tag s).mp hs

/-- Witness for the amended C6. -/
theorem C6_unknown_labels_only_filtered_by_intersection_witness :
    2 ≤ ([("A", exA), ("B", exB)] : Snapshot).length ∧
    "12:30-13:00" ∈
      lookupDay (find_common_slots [("A", exA), ("B", exB)] 30) .Montag ∧
    ∀ p ∈ ([("A", exA), ("B", exB)] : Snapshot), "12:30-13:00" ∈ p.2 .Montag :=
  ⟨by decide, by decide,
    C6_unknown_labels_only_filtered_by_intersection [("A", exA), ("B", exB)]
      (by decide) .Montag "12:30-13:00" (by decide)⟩

/-- Permuting the persons of a nonempty canonical snapshot leaves each
per-day intersection list unchanged. -/
theorem dayIntersection_perm (p : String × Avail) (rest : List (String × Avail))
    (data' : Snapshot) (hperm : (p :: rest : Snapshot).Perm data')
    (hcanon : canonicalSnapshot (p :: rest)) (tag : Weekday) :
    dayIntersection (p :: rest) tag = dayIntersection data' tag := by
  cases data' with
  | nil => exact absurd hperm.length_eq (by simp)
  | cons p' rest' =>
    have hcanon' : canonicalSnapshot (p' :: rest') := by
      intro q hq tag' ht' s hs
      exact hcanon q (hperm.mem_iff.mpr hq) tag' ht' s hs
    have hmem : ∀ s, s ∈ dayIntersection (p :: rest) tag ↔
        s ∈ dayIntersection (p' :: rest') tag := by
      intro s
      rw [mem_dayIntersection, mem_dayIntersection]
      constructor
      · intro h q hq; exact h q (hperm.mem_iff.mpr hq)
      · intro h q hq; exact h q (hperm.mem_iff.mp hq)
    have hc : ∀ s ∈ dayIntersection (p :: rest) tag, s ∈ HALF_HOUR_SLOTS := by
      intro s hs
      have hall := (mem_dayIntersection p rest tag s).mp hs
      exact hcanon p (List.mem_cons_self p rest) tag (mem_TAGE tag) s
        (hall p (List.mem_cons_self p rest))
    have hc' : ∀ s ∈ dayIntersection (p' :: rest') tag, s ∈ HALF_HOUR_SLOTS := by
      intro s hs
      have hall := (mem_dayIntersection p' rest' tag s).mp hs
      exact hcanon' p' (List.mem_cons_self p' rest') tag (mem_TAGE tag) s
        (hall p' (List.mem_cons_self p' rest'))
    exact eq_of_same_members_sorted _ _
      (dayIntersection_sorted _ _) (dayIntersection_sorted _ _)
      (dayIntersection_nodup _ _) (dayIntersection_nodup _ _)
      hc hc' hmem

/-- C7: for every canonical snapshot (all stored labels from the grid, the
data-model invariant) and every permutation of the order the chosen persons
are supplied in, `find_common_slots` yields identical per-day sequences. -/
theorem C7_participant_order_irrelevant (selected_data data' : Snapshot)
    (hperm : selected_data.Perm data')
    (hcanon : canonicalSnapshot selected_data) (meeting_length : Nat) :
    find_common_slots selected_data meeting_length =
      find_common_slots data' meeting_length := by
  have hlen := hperm.length_eq
  by_cases hl : selected_data.length < 2
  · unfold find_common_slots
    rw [if_pos hl, if_pos (hlen ▸ hl)]
  · have hday : ∀ tag, dayIntersection selected_data tag =
        dayIntersection data' tag := by
      intro tag
      cases selected_data with
      | nil => simp at hl
      | cons p rest => exact dayIntersection_perm p rest data' hperm hcanon tag
    unfold find_common_slots
    rw [if_neg hl, if_neg (hlen ▸ hl)]
    apply List.map_congr_left
    intro tag _
    rw [hday tag]

/-- Witness for C7: swapping the two persons of Scenario 1. -/
theorem C7_participant_order_irrelevant_witness :
    canonicalSnapshot [("A", exA), ("B", exB)] ∧
    find_common_slots [("A", exA), ("B", exB)] 30 =
      find_common_slots [("B", exB), ("A", exA)] 30 :=
  ⟨by decide,
    C7_participant_order_irrelevant [("A", exA), ("B", exB)]
      [("B", exB), ("A", exA)] (List.Perm.swap ("B", exB) ("A", exA) [])
      (by decide) 30⟩

/-- C8: intersecting over a superset of participants never yields more free
slots per day: each slot reported for the superset is reported for any
subset of it (both of size at least two). -/
theorem C8_subset_monotonicity (sub sup : Snapshot)
    (hsub2 : 2 ≤ sub.length) (hsup2 : 2 ≤ sup.length)
    (hss : ∀ e ∈ sub, e ∈ sup) (tag : Weekday) (s : String)
    (hs : s ∈ lookupDay (find_common_slots sup 30) tag) :
    s ∈ lookupDay (find_common_slots sub 30) tag := by
  rw [lookupDay_find_common_slots sup 30 (by omega) tag, if_pos rfl] at hs
  rw [lookupDay_find_common_slots sub 30 (by omega) tag, if_pos rfl]
  cases sup with
  | nil => simp at hsup2
  | cons p r =>
    cases sub with
    | nil => simp at hsub2
    | cons p' r' =>
      rw [mem_dayIntersection] at hs ⊢
      intro q hq
      exact hs q (hss q hq)

/-- Witness for C8: adding a third person can only shrink the Monday result. -/
theorem C8_subset_monotonicity_witness :
    "12:30-13:00" ∈
      lookupDay (find_common_slots [("A", exA), ("B", exB), ("C", exC)] 30)
        .Montag ∧
    "12:30-13:00" ∈
      lookupDay (find_common_slots [("A", exA), ("B", exB)] 30) .Montag :=
  ⟨by decide,
    C8_subset_monotonicity [("A", exA), ("B", exB)]
      [("A", exA), ("B", exB), ("C", exC)] (by decide) (by decide)
      (by
        intro e he
        rcases List.mem_cons.mp he with h | he2
        · exact h ▸ List.mem_cons_self _ _
        · rcases List.mem_cons.mp he2 with h | he3
          · exact List.mem_cons_of_mem _ (h ▸ List.mem_cons_self _ _)
          · simp at he3)
      .Montag "12:30-13:00" (by decide)⟩

/-- C9: in 60-minute mode on a duplicate-free list of half-hour labels, the
emitted blocks are the merges of the consumed slot pairs in order; the
consumed pairs flattened together with the dropped slots are a duplicate-free
permutation of the input (so the pairs are pairwise disjoint and every slot
is consumed by exactly one block or dropped, never duplicated); and every
emitted block spans exactly 60 minutes. -/
theorem C9_consolidation_partition_or_drop (l : List String) (hnd : l.Nodup)
    (hhalf : ∀ s ∈ l, slotEndMinutes s = slot_to_minutes s + 30) :
    find_hour_blocks l =
      (hourBlocksTrace l).2.1.map (fun pq => mergeLabel pq.1 pq.2) ∧
    (((hourBlocksTrace l).2.1.bind fun pq => [pq.1, pq.2]) ++
        (hourBlocksTrace l).2.2).Perm l ∧
    (((hourBlocksTrace l).2.1.bind fun pq => [pq.1, pq.2]) ++
        (hourBlocksTrace l).2.2).Nodup ∧
    ∀ pq ∈ (hourBlocksTrace l).2.1,
      slotEndMinutes (mergeLabel pq.1 pq.2) =
        slot_to_minutes (mergeLabel pq.1 pq.2) + 60 := by
  refine ⟨?_, hourBlocksTrace_perm l,
    ((hourBlocksTrace_perm l).nodup_iff).mpr hnd, ?_⟩
  · rw [← hourBlocksTrace_fst]
    exact hourBlocksTrace_blocks_eq_map l
  · intro pq hpq
    have hadj := hourBlocksTrace_pairs_adjacent l pq hpq
    have h2 : pq.2 ∈ l := by
      refine (hourBlocksTrace_perm l).mem_iff.mp (List.mem_append_left _ ?_)
      exact List.mem_bind.mpr ⟨pq, hpq, by simp⟩
    have h1 : pq.1 ∈ l := by
      refine (hourBlocksTrace_perm l).mem_iff.mp (List.mem_append_left _ ?_)
      exact List.mem_bind.mpr ⟨pq, hpq, by simp⟩
    rw [slotEndMinutes_mergeLabel, slot_to_minutes_mergeLabel,
      hhalf pq.2 h2, hadj]

/-- Witness for C9 at the three-in-a-row scenario. -/
theorem C9_consolidation_partition_or_drop_witness :
    (["12:00-12:30", "12:30-13:00", "13:00-13:30"] : List String).Nodup ∧
    find_hour_blocks ["12:00-12:30", "12:30-13:00", "13:00-13:30"] =
      (hourBlocksTrace ["12:00-12:30", "12:30-13:00", "13:00-13:30"]).2.1.map
        (fun pq => mergeLabel pq.1 pq.2) :=
  ⟨by decide,
    (C9_consolidation_partition_or_drop
      ["12:00-12:30", "12:30-13:00", "13:00-13:30"] (by decide) (by decide)).1⟩
